import Mathlib

/-!
Verification of the dotnet project-reference archive bundler from
`azure/cli/command_modules/appservice/_create_util.py` (region
"Add the project references for dotnet webapp in zip archive", plus its
caller `zip_contents_from_dir`).

The Python code is shallowly embedded: strings are Lean `String`s (lists of
code points, matching Python's code-point slicing), the filesystem is an
association list from paths to zip archives, file reads and manifest parses
are supplied by a pure environment, and every fallible operation returns
`Except PyError`.  All definitions are executable so that concrete witnesses
evaluate by `decide` / `rfl`.
-/

/-- The Python exception kinds that matter to the bundler.
`broadException` is a bare `Exception(...)` (raised by
`_get_dotnet_main_project_csproj`); the others are the classes named in the
`except (OSError, ValueError, TypeError, ParseError, BadZipFile,
LargeZipFile)` clause of `zip_contents_from_dir`.  `fuelExhausted` is an
artifact of the fuel-indexed closure loop and never occurs in a run given
enough fuel. -/
inductive PyError where
  | broadException
  | parseError
  | osError
  | badZipFile
  | valueError
  | typeError
  | largeZipFile
  | fuelExhausted
  deriving DecidableEq, Repr

instance {ε α : Type} [DecidableEq ε] [DecidableEq α] : DecidableEq (Except ε α) := fun a b =>
  match a, b with
  | .error e, .error f =>
    if h : e = f then .isTrue (by rw [h]) else .isFalse (by intro hh; cases hh; exact h rfl)
  | .error _, .ok _ => .isFalse (by intro hh; cases hh)
  | .ok _, .error _ => .isFalse (by intro hh; cases hh)
  | .ok a, .ok b =>
    if h : a = b then .isTrue (by rw [h]) else .isFalse (by intro hh; cases hh; exact h rfl)

/-- String concatenation, kept as an explicit operation on the underlying
code-point lists so proofs stay in `List Char`. -/
def strCat (a b : String) : String := ⟨a.data ++ b.data⟩

/-- Python slicing `s[n:]` on code points. -/
def strDropN (s : String) (n : Nat) : String := ⟨s.data.drop n⟩

/-- Boolean list-prefix test (own definition, fully kernel-reducible). -/
def isPrefixL : List Char → List Char → Bool
  | [], _ => true
  | _ :: _, [] => false
  | a :: as, b :: bs => a == b && isPrefixL as bs

/-- Python `s.startswith(p)`. -/
def strStartsWith (s p : String) : Bool := isPrefixL p.data s.data

/-- Python `s.endswith(p)`. -/
def strEndsWith (s p : String) : Bool := isPrefixL p.data.reverse s.data.reverse

theorem isPrefixL_append (p l : List Char) (h : isPrefixL p l = true) :
    p ++ l.drop p.length = l := by
  induction p generalizing l with
  | nil => simp
  | cons a as ih =>
    cases l with
    | nil => simp [isPrefixL] at h
    | cons b bs =>
      simp only [isPrefixL, Bool.and_eq_true, beq_iff_eq] at h
      simpa [h.1] using ih bs h.2

/-- Python `s.replace(old, new)` on code-point lists: scan left to right,
replace each non-overlapping occurrence, continue after the replacement.
The loop is fuel-indexed (fuel `≥` length of the scanned list) so the
kernel can evaluate it.  The Python corner case of an empty pattern
(`"".join` interleaving) never arises here because every substituted key is
a nonempty `.csproj` path; an empty pattern leaves the input unchanged. -/
def pyReplaceGo (pat rep : List Char) : Nat → List Char → List Char
  | _, [] => []
  | 0, s => s
  | f + 1, c :: rest =>
    if pat ≠ [] ∧ isPrefixL pat (c :: rest) = true then
      rep ++ pyReplaceGo pat rep f ((c :: rest).drop pat.length)
    else
      c :: pyReplaceGo pat rep f rest

/-- Python `s.replace(old, new)` for strings. -/
def strReplace (s pat rep : String) : String :=
  ⟨pyReplaceGo pat.data rep.data s.data.length s.data⟩

/-- Lines 635-636: fold `str.replace` over the rewrite dictionary in its
insertion order (`for k, v in replace_dict.items()`). -/
def rewriteManifest (content : String) (dict : List (String × String)) : String :=
  dict.foldl (fun acc kv => strReplace acc kv.1 kv.2) content

theorem pyReplaceGo_id (pat : List Char) :
    ∀ (f : Nat) (s : List Char), s.length ≤ f → pyReplaceGo pat pat f s = s := by
  intro f
  induction f with
  | zero =>
    intro s hs
    cases s with
    | nil => rfl
    | cons c rest => simp at hs
  | succ f ih =>
    intro s hs
    cases s with
    | nil => rfl
    | cons c rest =>
      by_cases h : pat ≠ [] ∧ isPrefixL pat (c :: rest) = true
      · have hlen : ((c :: rest).drop pat.length).length ≤ f := by
          have hp : 1 ≤ pat.length := by
            cases pat with
            | nil => exact absurd rfl h.1
            | cons p ps => simp
          rw [List.length_drop, List.length_cons]
          simp only [List.length_cons] at hs
          omega
        simp only [pyReplaceGo, if_pos h]
        rw [ih _ hlen]
        exact isPrefixL_append pat (c :: rest) h.2
      · simp only [pyReplaceGo, if_neg h]
        have : rest.length ≤ f := by
          simp only [List.length_cons] at hs; omega
        rw [ih rest this]

theorem strReplace_id (s k : String) : strReplace s k k = s := by
  show (⟨pyReplaceGo k.data k.data s.data.length s.data⟩ : String) = s
  rw [pyReplaceGo_id k.data s.data.length s.data (Nat.le_refl _)]

/-- Model of `os.path.join(path, b)` for a single extra component (POSIX rules). -/
def joinOne (path b : String) : String :=
  if strStartsWith b "/" then b
  else if path = "" ∨ strEndsWith path "/" then strCat path b
  else strCat path (strCat "/" b)

/-- Model of `os.path.join(a, b, c)`. -/
def pyJoin3 (a b c : String) : String := joinOne (joinOne a b) c

/-- Split code points on the slash separator. -/
def splitStep (c : Char) (acc : List (List Char)) : List (List Char) :=
  match acc with
  | g :: gs => if c = '/' then [] :: g :: gs else (c :: g) :: gs
  | [] => [[c]]

def splitOnSlash (l : List Char) : List (List Char) := l.foldr splitStep [[]]

/-- Nonempty path components of a string. -/
def componentsOf (s : String) : List String :=
  ((splitOnSlash s.data).filter (· ≠ [])).map (fun l => ⟨l⟩)

/-- One step of POSIX `normpath` over components: drop `.`, resolve `..`
against the accumulated prefix (at the root `..` is dropped). -/
def normStep (acc : List String) (c : String) : List String :=
  if c = "." then acc else if c = ".." then acc.dropLast else acc ++ [c]

/-- Rebuild an absolute path from components. -/
def joinComps (cs : List String) : String :=
  ⟨'/' :: List.intercalate ['/'] (cs.map String.data)⟩

/-- Model of `os.path.abspath` applied to an already absolute path: `normpath`.
(The POSIX double-leading-slash special case is not modelled; no input in
this development starts with `//`.) -/
def absNorm (s : String) : String := joinComps ((componentsOf s).foldl normStep [])

/-- Model of `os.path.dirname` (POSIX): the text before the last slash, with
trailing slashes stripped unless the head is all slashes. -/
def dirnameStr (p : String) : String :=
  let headData := (p.data.reverse.dropWhile (fun c => c ≠ '/')).reverse
  if headData ≠ [] ∧ headData.any (fun c => c ≠ '/') then
    ⟨(headData.reverse.dropWhile (fun c => c = '/')).reverse⟩
  else ⟨headData⟩

/-- Model of `os.path.basename` (POSIX): the text after the last slash. -/
def basenameStr (p : String) : String :=
  ⟨(p.data.reverse.takeWhile (fun c => c ≠ '/')).reverse⟩

/-- The fixed top-level folder for staged references inside the archive.
Modelled from the spec: `DOTNET_REFERENCES_DIR_IN_ZIP` is imported from
`._constants`, a module not present in the sources; the spec describes it
as "a fixed top-level references folder".  No claim below depends on its
exact value. -/
def DOTNET_REFERENCES_DIR_IN_ZIP : String := "references"

/-- A finite reference graph: each manifest path maps to the list of
`ProjectReference/@Include` strings `_get_dotnet_project_references`
extracts from it.  Paths absent from the list parse to no references. -/
def refsOf (G : List (String × List String)) (s : String) : List String :=
  match G.lookup s with
  | some l => l
  | none => []

/-- An always-succeeding parse function built from a finite graph. -/
def pureParse (G : List (String × List String)) : String → Except PyError (List String) :=
  fun s => .ok (refsOf G s)

/-- Lines 576-579: for one suggested reference, append it to
`result_references` and enqueue it in `newReference` unless it was seen
before (`if suggested_reference not in result_references`). -/
def pushNew (st : List String × List String) (s : String) : List String × List String :=
  if st.1.contains s then st else (st.1 ++ [s], st.2 ++ [s])

/-- Lines 573-579: the `while any(newReference)` loop.  `res` is
`result_references`, the queue is `newReference` (Python pops an arbitrary
set element; the model pops the front).  The loop is fuel-indexed; fuel
exhaustion yields `none` and `transLoop_total` below shows enough fuel
always exists.  A parse failure inside the loop propagates, as the
uncaught `ParseError` does in Python. -/
def transLoopE (parse : String → Except PyError (List String)) :
    Nat → List String → List String → Except PyError (Option (List String))
  | _, res, [] => .ok (some res)
  | 0, _, _ :: _ => .ok none
  | f + 1, res, r :: q =>
    match parse r with
    | .error e => .error e
    | .ok l =>
      let st := l.foldl pushNew (res, q)
      transLoopE parse f st.1 st.2

/-- Python `list(set(a) - set(b))` up to ordering: the members of `a` not
in `b`, without duplicates. -/
def pySetDiff (a b : List String) : List String :=
  (a.filter (fun s => ¬ b.contains s)).dedup

/-- Lines 569-581, `_get_dotnet_transitive_missing_references`:
`result_references` starts as `list(current_references)`, `newReference`
as `set(current_references)` (modelled by `dedup`), and the returned value
is `list(set(result_references) - set(current_references))`. -/
def get_dotnet_transitive_missing_references
    (parse : String → Except PyError (List String)) (fuel : Nat)
    (current : List String) : Except PyError (Option (List String)) :=
  (transLoopE parse fuel current current.dedup).map
    (Option.map (fun res => pySetDiff res current))

/-- The read-only inputs of one bundler run: the project directory and its
listing (`os.listdir`), the manifest parser (`_get_dotnet_project_references`
as a black box from path string to extracted `Include` values, fallible the
way `ET.parse` is), the filtered directory walk (`os.walk` with `obj`/`bin`
pruned, as paths relative to the walked directory), and file reads. -/
structure Env where
  dirPath : String
  listing : List String
  parse : String → Except PyError (List String)
  walk : String → List String
  file : String → Except PyError String

/-- A zip archive: entries in write order; `none` content marks a corrupted
entry whose read raises `BadZipFile`. -/
abbrev Archive := List (String × Option String)

/-- The mutable filesystem: archives by path, newest binding first. -/
abbrev FS := List (String × Archive)

def fsLookup (fs : FS) (k : String) : Option Archive := fs.lookup k

def fsSet (fs : FS) (k : String) (v : Archive) : FS := (k, v) :: fs

def fsRemove (fs : FS) (k : String) : FS := fs.filter (fun en => en.1 ≠ k)

/-- Python `dict` insertion: overwrite in place if the key exists,
otherwise append (preserving insertion order, as `dict.items()` does). -/
def dictInsert (d : List (String × String)) (k v : String) : List (String × String) :=
  if d.any (fun kv => kv.1 == k) then d.map (fun kv => if kv.1 = k then (k, v) else kv)
  else d ++ [(k, v)]

/-- Lines 533-541, `_get_dotnet_main_project_csproj`: filter the listing to
`.csproj` names; exactly one is joined onto the directory, otherwise a bare
`Exception` is raised. -/
def get_dotnet_main_project_csproj (dirPath : String) (listing : List String) :
    Except PyError String :=
  match listing.filter (fun x => strEndsWith x ".csproj") with
  | [x] => .ok (joinOne dirPath x)
  | _ => .error .broadException

/-- Lines 598-604: walk the reference's directory and write every file under
`references/<basename>/<relative path>`.  The entry content is the file's
bytes; a failing read aborts (entries already written before a failure are
not tracked, no claim observes the staging archive after a failure). -/
def readWalk (env : Env) (d b : String) : List String → Except PyError Archive
  | [] => .ok []
  | rel :: rest =>
    match env.file (joinOne d rel) with
    | .error e => .error e
    | .ok c =>
      match readWalk env d b rest with
      | .error e => .error e
      | .ok es => .ok ((pyJoin3 DOTNET_REFERENCES_DIR_IN_ZIP b rel, some c) :: es)

/-- Lines 590-608, the body of the `for include in abs_references` loop:
resolve the include against `dirPath`, stage the containing directory's
tree, append the `.bak` copy of the reference manifest, and produce the
`replace_dict` binding `include ↦ csproj_include`. -/
def stageGroup (env : Env) (inc : String) : Except PyError (Archive × String × String) :=
  let absInc := absNorm (joinOne env.dirPath inc)
  let d := dirnameStr absInc
  let b := basenameStr d
  let relCs := strDropN absInc (d.data.length + 1)
  let csprojInclude := pyJoin3 DOTNET_REFERENCES_DIR_IN_ZIP b relCs
  match readWalk env d b (env.walk d) with
  | .error e => .error e
  | .ok es =>
    match env.file absInc with
    | .error e => .error e
    | .ok c => .ok (es ++ [(strCat csprojInclude ".bak", some c)], inc, csprojInclude)

/-- Lines 585-610, `_append_dotnet_references`: stage every reference in
list order into the currently open staging archive, threading the
`replace_dict`.  Returns the entries written and the final dictionary. -/
def append_dotnet_references (env : Env) :
    List String → List (String × String) →
    Archive × Except PyError (List (String × String))
  | [], d0 => ([], .ok d0)
  | inc :: rest, d0 =>
    match stageGroup env inc with
    | .error e => ([], .error e)
    | .ok (es, k, v) =>
      let r := append_dotnet_references env rest (dictInsert d0 k v)
      (es ++ r.1, r.2)

/-- Line 654, `original_zf.open(original_info.filename)`: `zipfile` resolves
an entry by name through `NameToInfo`, which maps each name to the last
entry bearing it; a corrupted or unresolvable entry raises `BadZipFile`. -/
def readByName (orig : Archive) (n : String) : Except PyError String :=
  match orig.reverse.find? (fun en => en.1 == n) with
  | some (_, some c) => .ok c
  | _ => .error .badZipFile

/-- Lines 652-656: iterate the original archive's `infolist()`, skip every
entry whose name ends in `.csproj`, and re-write the raw bytes of the rest
into the staging archive. -/
def copyEntries (orig : Archive) : Archive → Archive × Except PyError Unit
  | [] => ([], .ok ())
  | (n, _) :: rest =>
    if strEndsWith n ".csproj" then copyEntries orig rest
    else
      match readByName orig n with
      | .error e => ([], .error e)
      | .ok c =>
        let r := copyEntries orig rest
        ((n, some c) :: r.1, r.2)

/-- Python `csproj_path[len(dirPath) + 1:]`, the archive-relative name of
the root manifest. -/
def relNameOf (dirPath csprojPath : String) : String :=
  strDropN csprojPath (dirPath.data.length + 1)

/-- Lines 614-660, `zip_dotnet_project_references`.  Steps: resolve the
root manifest; parse its direct references; if any, create `<zip>.tmp`
holding the `references/` directory entry; stage direct references (step 2);
read the root manifest and rewrite it through `replace_dict`; stage the
transitive-only references (step 3, dictionary discarded); write the root
backup, the rewritten manifest, and the copied original entries (step 4);
delete the original and rename the staging archive onto it (step 5).  The
root manifest file is read once and that value used for both the rewrite
and the `.bak` entry (the environment is a pure function, so the second
`zf.write` read returns the same bytes).  Every early exit returns the
filesystem with only the `<zip>.tmp` binding touched. -/
def zip_dotnet_project_references (env : Env) (fuel : Nat) (zipPath : String) (fs : FS) :
    Except PyError Unit × FS :=
  match get_dotnet_main_project_csproj env.dirPath env.listing with
  | .error e => (.error e, fs)
  | .ok csprojPath =>
    match env.parse csprojPath with
    | .error e => (.error e, fs)
    | .ok refs =>
      if refs = [] then (.ok (), fs)
      else
        let tmp := strCat zipPath ".tmp"
        let a0 : Archive := [(strCat DOTNET_REFERENCES_DIR_IN_ZIP "/", some "")]
        match append_dotnet_references env refs [] with
        | (es2, .error e) => (.error e, fsSet fs tmp (a0 ++ es2))
        | (es2, .ok rdict) =>
          match env.file csprojPath with
          | .error e => (.error e, fsSet fs tmp (a0 ++ es2))
          | .ok content =>
            let newContent := rewriteManifest content rdict
            match get_dotnet_transitive_missing_references env.parse fuel refs with
            | .error e => (.error e, fsSet fs tmp (a0 ++ es2))
            | .ok none => (.error .fuelExhausted, fsSet fs tmp (a0 ++ es2))
            | .ok (some ts) =>
              match (if ts = [] then (([] : Archive), Except.ok ([] : List (String × String)))
                     else append_dotnet_references env ts []) with
              | (es3, .error e) => (.error e, fsSet fs tmp (a0 ++ es2 ++ es3))
              | (es3, .ok _) =>
                let rel := relNameOf env.dirPath csprojPath
                let pre := a0 ++ es2 ++ es3 ++
                  [(strCat rel ".bak", some content), (rel, some newContent)]
                match fsLookup fs zipPath with
                | none => (.error .osError, fsSet fs tmp pre)
                | some orig =>
                  match copyEntries orig orig with
                  | (cops, .error e) => (.error e, fsSet fs tmp (pre ++ cops))
                  | (cops, .ok _) =>
                    let fsAll := fsSet fs tmp (pre ++ cops)
                    (.ok (), fsSet (fsRemove (fsRemove fsAll zipPath) tmp) zipPath (pre ++ cops))

/-- The exception classes caught at lines 76-79: `(OSError, ValueError,
TypeError, ParseError, BadZipFile, LargeZipFile)`.  A bare `Exception`
matches none of them. -/
def caughtByBundlerNet : PyError → Bool
  | .osError | .valueError | .typeError | .parseError | .badZipFile | .largeZipFile => true
  | .broadException | .fuelExhausted => false

/-- Lines 73-79, the netcore tail of `zip_contents_from_dir`: call the
bundler; a caught exception only logs a warning and the function goes on to
return `zip_file_path`; an uncaught exception propagates (the enclosing
`except OSError` clause does not match a bare `Exception` either). -/
def zip_contents_from_dir_netcore (env : Env) (fuel : Nat) (zipPath : String) (fs : FS) :
    Except PyError (String × FS) :=
  match zip_dotnet_project_references env fuel zipPath fs with
  | (.ok _, fs2) => .ok (zipPath, fs2)
  | (.error e, fs2) => if caughtByBundlerNet e then .ok (zipPath, fs2) else .error e

/-- The error component of a bundler run, if any. -/
def errOf (r : Except PyError Unit × FS) : Option PyError :=
  match r.1 with
  | .error e => some e
  | .ok _ => none

/-- The outcome of the caller tail: `some e` if an exception propagated. -/
def tailOutcome (r : Except PyError (String × FS)) : Option PyError :=
  match r with
  | .error e => some e
  | .ok _ => none

theorem strCat_ne_left (a b : String) (hb : b.data ≠ []) : strCat a b ≠ a := by
  intro h
  have hlen := congrArg (fun s : String => s.data.length) h
  simp only [strCat] at hlen
  rw [List.length_append] at hlen
  have hb2 : 0 < b.data.length := List.length_pos.mpr hb
  omega

theorem contains_iff_mem (l : List String) (s : String) : l.contains s = true ↔ s ∈ l := by
  simp [List.contains, List.elem_iff]

theorem fsLookup_fsSet_self (fs : FS) (k : String) (v : Archive) :
    fsLookup (fsSet fs k v) k = some v := by
  simp [fsLookup, fsSet, List.lookup]

theorem fsLookup_fsSet_ne (fs : FS) (k k2 : String) (v : Archive) (h : k ≠ k2) :
    fsLookup (fsSet fs k v) k2 = fsLookup fs k2 := by
  have hb : (k2 == k) = false := beq_eq_false_iff_ne.mpr (fun hh => h hh.symm)
  simp [fsLookup, fsSet, List.lookup, hb]

theorem tmp_ne_zip (zipPath : String) : strCat zipPath ".tmp" ≠ zipPath :=
  strCat_ne_left zipPath ".tmp" (by decide)


/-- C2: finalization is atomic.  Every run of
`zip_dotnet_project_references` either returns success or leaves the
archive at `zipPath` exactly as it was: all failing exits mutate at most
the `<zipPath>.tmp` staging binding, and the delete-and-rename of the
original happens only on the all-copies-succeeded path. -/
theorem c2_finalization_atomic (env : Env) (fuel : Nat) (zipPath : String) (fs : FS) :
    (zip_dotnet_project_references env fuel zipPath fs).1 = Except.ok () ∨
    fsLookup (zip_dotnet_project_references env fuel zipPath fs).2 zipPath =
      fsLookup fs zipPath := by
  cases hmain : get_dotnet_main_project_csproj env.dirPath env.listing with
  | error e =>
    right; simp only [zip_dotnet_project_references, hmain]
  | ok csprojPath =>
    cases hparse : env.parse csprojPath with
    | error e =>
      right; simp only [zip_dotnet_project_references, hmain, hparse]
    | ok refs =>
      by_cases h3 : refs = []
      · left; simp only [zip_dotnet_project_references, hmain, hparse, if_pos h3]
      · rcases happ : append_dotnet_references env refs [] with ⟨es2, r2⟩
        cases r2 with
        | error e =>
          right
          simp only [zip_dotnet_project_references, hmain, hparse, if_neg h3, happ]
          exact fsLookup_fsSet_ne fs _ _ _ (tmp_ne_zip zipPath)
        | ok rdict =>
          cases hfile : env.file csprojPath with
          | error e =>
            right
            simp only [zip_dotnet_project_references, hmain, hparse, if_neg h3, happ, hfile]
            exact fsLookup_fsSet_ne fs _ _ _ (tmp_ne_zip zipPath)
          | ok content =>
            cases htrans : get_dotnet_transitive_missing_references env.parse fuel refs with
            | error e =>
              right
              simp only [zip_dotnet_project_references, hmain, hparse, if_neg h3, happ,
                hfile, htrans]
              exact fsLookup_fsSet_ne fs _ _ _ (tmp_ne_zip zipPath)
            | ok o =>
              cases o with
              | none =>
                right
                simp only [zip_dotnet_project_references, hmain, hparse, if_neg h3, happ,
                  hfile, htrans]
                exact fsLookup_fsSet_ne fs _ _ _ (tmp_ne_zip zipPath)
              | some ts =>
                rcases hstep : (if ts = [] then (([] : Archive),
                    Except.ok ([] : List (String × String)))
                  else append_dotnet_references env ts []) with ⟨es3, r3⟩
                cases r3 with
                | error e =>
                  right
                  simp only [zip_dotnet_project_references, hmain, hparse, if_neg h3, happ,
                    hfile, htrans, hstep]
                  exact fsLookup_fsSet_ne fs _ _ _ (tmp_ne_zip zipPath)
                | ok d3 =>
                  cases horig : fsLookup fs zipPath with
                  | none =>
                    right
                    simp only [zip_dotnet_project_references, hmain, hparse, if_neg h3, happ,
                      hfile, htrans, hstep, horig]
                    rw [fsLookup_fsSet_ne fs _ _ _ (tmp_ne_zip zipPath), horig]
                  | some orig =>
                    rcases hcopy : copyEntries orig orig with ⟨cops, rc⟩
                    cases rc with
                    | error e =>
                      right
                      simp only [zip_dotnet_project_references, hmain, hparse, if_neg h3, happ,
                        hfile, htrans, hstep, horig, hcopy]
                      rw [fsLookup_fsSet_ne fs _ _ _ (tmp_ne_zip zipPath), horig]
                    | ok u =>
                      left
                      simp only [zip_dotnet_project_references, hmain, hparse, if_neg h3, happ,
                        hfile, htrans, hstep, horig, hcopy]

/-- C5: when the root directory's listing does not contain exactly one
`.csproj` name, the bundler fails with the bare `Exception` immediately:
the result is an error and the filesystem — the original archive included
— is returned untouched, for every parse/walk/read environment (so no
reference traversal and no archive write can have happened). -/
theorem c5_ambiguous_root_fails_early (env : Env) (fuel : Nat) (zipPath : String) (fs : FS)
    (h : (env.listing.filter (fun y => strEndsWith y ".csproj")).length ≠ 1) :
    zip_dotnet_project_references env fuel zipPath fs = (.error .broadException, fs) := by
  cases hl : env.listing.filter (fun y => strEndsWith y ".csproj") with
  | nil =>
    simp only [zip_dotnet_project_references, get_dotnet_main_project_csproj, hl]
  | cons a t =>
    cases t with
    | nil => rw [hl] at h; simp at h
    | cons b t2 =>
      simp only [zip_dotnet_project_references, get_dotnet_main_project_csproj, hl]

/-- C10: when the listing resolves to a root manifest that declares no
project references, the bundler returns success and the filesystem is
returned exactly as given: no staging archive is created and the original
archive is untouched. -/
theorem c10_no_references_no_mutation (env : Env) (fuel : Nat) (zipPath : String) (fs : FS)
    (p : String)
    (h1 : get_dotnet_main_project_csproj env.dirPath env.listing = .ok p)
    (h2 : env.parse p = .ok []) :
    zip_dotnet_project_references env fuel zipPath fs = (.ok (), fs) := by
  simp only [zip_dotnet_project_references, h1, h2, if_pos]

/-- All strings any parse in the pure graph can ever return. -/
def uniOf (G : List (String × List String)) : List String := G.flatMap (fun kv => kv.2)

theorem refsOf_subset_uniOf (G : List (String × List String)) (r a : String)
    (h : a ∈ refsOf G r) : a ∈ uniOf G := by
  induction G with
  | nil => simp [refsOf, List.lookup] at h
  | cons hd t ih =>
    rw [refsOf, List.lookup] at h
    rcases hd with ⟨k, l⟩
    cases hb : r == k with
    | true =>
      rw [hb] at h
      simp only [uniOf, List.flatMap_cons]
      exact List.mem_append_left _ h
    | false =>
      rw [hb] at h
      simp only [uniOf, List.flatMap_cons]
      exact List.mem_append_right _ (ih (by rw [refsOf]; exact h))

theorem pushNew_foldl (l : List String) : ∀ (res q : List String), ∃ adds,
    l.foldl pushNew (res, q) = (res ++ adds, q ++ adds) ∧ adds.Nodup ∧
    ∀ a ∈ adds, a ∈ l ∧ a ∉ res := by
  induction l with
  | nil =>
    intro res q
    exact ⟨[], by simp, List.nodup_nil, by simp⟩
  | cons s t ih =>
    intro res q
    by_cases hc : res.contains s = true
    · obtain ⟨adds, he, hn, hm⟩ := ih res q
      refine ⟨adds, ?_, hn, ?_⟩
      · rw [List.foldl_cons, pushNew, if_pos hc]
        exact he
      · intro a ha
        exact ⟨List.mem_cons_of_mem _ (hm a ha).1, (hm a ha).2⟩
    · obtain ⟨adds, he, hn, hm⟩ := ih (res ++ [s]) (q ++ [s])
      refine ⟨s :: adds, ?_, ?_, ?_⟩
      · rw [List.foldl_cons, pushNew, if_neg hc, he, List.append_cons res s adds,
          List.append_cons q s adds]
      · refine List.nodup_cons.mpr ⟨?_, hn⟩
        intro hs
        have := (hm s hs).2
        exact this (List.mem_append_right res (List.mem_singleton.mpr rfl))
      · intro a ha
        rcases List.mem_cons.mp ha with h1 | h1
        · subst h1
          refine ⟨List.mem_cons_self a t, ?_⟩
          intro hres
          exact hc ((contains_iff_mem res a).mpr hres)
        · rcases hm a h1 with ⟨h2, h3⟩
          refine ⟨List.mem_cons_of_mem _ h2, ?_⟩
          intro hres
          exact h3 (List.mem_append_left _ hres)

theorem transLoop_total (G : List (String × List String)) :
    ∀ (fuel : Nat) (res q : List String),
      ((uniOf G).toFinset \ res.toFinset).card + q.length ≤ fuel →
      ∃ out, transLoopE (pureParse G) fuel res q = .ok (some out) := by
  intro fuel
  induction fuel with
  | zero =>
    intro res q h
    cases q with
    | nil => exact ⟨res, rfl⟩
    | cons r t => simp [List.length_cons] at h
  | succ f ih =>
    intro res q h
    cases q with
    | nil => exact ⟨res, rfl⟩
    | cons r t =>
      obtain ⟨adds, he, hn, hm⟩ := pushNew_foldl (refsOf G r) res t
      have hsub : adds.toFinset ⊆ (uniOf G).toFinset \ res.toFinset := by
        intro a ha
        rw [List.mem_toFinset] at ha
        rcases hm a ha with ⟨h1, h2⟩
        rw [Finset.mem_sdiff, List.mem_toFinset, List.mem_toFinset]
        exact ⟨refsOf_subset_uniOf G r a h1, h2⟩
      have hmeas : ((uniOf G).toFinset \ (res ++ adds).toFinset).card + (t ++ adds).length ≤ f := by
        rw [List.toFinset_append]
        have hdist : (uniOf G).toFinset \ (res.toFinset ∪ adds.toFinset) =
            ((uniOf G).toFinset \ res.toFinset) \ adds.toFinset := by
          ext x; simp [Finset.mem_sdiff]; tauto
        rw [hdist, Finset.card_sdiff hsub, List.length_append]
        have hcard : adds.toFinset.card = adds.length := List.toFinset_card_of_nodup hn
        have hle : adds.toFinset.card ≤ ((uniOf G).toFinset \ res.toFinset).card :=
          Finset.card_le_card hsub
        rw [List.length_cons] at h
        omega
      obtain ⟨out, hout⟩ := ih (res ++ adds) (t ++ adds) hmeas
      refine ⟨out, ?_⟩
      show transLoopE (pureParse G) (f + 1) res (r :: t) = .ok (some out)
      rw [transLoopE]
      simp only [pureParse]
      rw [he]
      exact hout

/-- C3: for every finite reference graph — cycles and duplicate edges
included — there is enough fuel for `_get_dotnet_transitive_missing_references`
to drain its work queue (termination by the seen-before-enqueue
discipline), and the returned list has no duplicate entries. -/
theorem c3_closure_terminates_without_duplicates
    (G : List (String × List String)) (current : List String) :
    ∃ fuel r, get_dotnet_transitive_missing_references (pureParse G) fuel current =
      .ok (some r) ∧ r.Nodup := by
  obtain ⟨out, hout⟩ := transLoop_total G
    (((uniOf G).toFinset \ current.toFinset).card + current.dedup.length)
    current current.dedup (le_refl _)
  refine ⟨((uniOf G).toFinset \ current.toFinset).card + current.dedup.length,
    pySetDiff out current, ?_, List.nodup_dedup _⟩
  unfold get_dotnet_transitive_missing_references
  rw [hout]
  rfl

theorem transitive_ok_shape (parse : String → Except PyError (List String)) (fuel : Nat)
    (current r : List String)
    (h : get_dotnet_transitive_missing_references parse fuel current = .ok (some r)) :
    ∃ res, r = pySetDiff res current := by
  unfold get_dotnet_transitive_missing_references at h
  cases ht : transLoopE parse fuel current current.dedup with
  | error e => rw [ht] at h; simp [Except.map] at h
  | ok o =>
    rw [ht] at h
    cases o with
    | none => simp [Except.map] at h
    | some res =>
      simp [Except.map] at h
      exact ⟨res, h.symm⟩

theorem pySetDiff_not_mem (a b : List String) (s : String) (h : s ∈ pySetDiff a b) : s ∉ b := by
  unfold pySetDiff at h
  rw [List.mem_dedup, List.mem_filter] at h
  intro hb
  have h2 := h.2
  simp only [decide_eq_true_eq] at h2
  exact h2 ((contains_iff_mem b s).mpr hb)

theorem pySetDiff_nodup (a b : List String) : (pySetDiff a b).Nodup := List.nodup_dedup _

/-- C4 (amended): the closure result excludes exactly the direct-reference
strings handed to `_get_dotnet_transitive_missing_references` — the final
`set(result_references) - set(current_references)`; the root's own
identity is excluded only when it occurs among those direct references. -/
theorem c4_closure_excludes_direct_references
    (parse : String → Except PyError (List String)) (fuel : Nat) (current r : List String)
    (h : get_dotnet_transitive_missing_references parse fuel current = .ok (some r)) :
    ∀ s ∈ current, s ∉ r := by
  obtain ⟨res, hr⟩ := transitive_ok_shape parse fuel current r h
  intro s hs hsr
  rw [hr] at hsr
  exact pySetDiff_not_mem res current s hsr hs

/-- A cyclic reference graph whose cycle routes back to the root manifest
`/app/App.csproj` under its own absolute path. -/
def cGraphCycle : List (String × List String) :=
  [("/app/App.csproj", ["../Lib/Lib.csproj"]), ("../Lib/Lib.csproj", ["/app/App.csproj"])]

/-- The list inside a successful closure result. -/
def closureResultOf (x : Except PyError (Option (List String))) : List String :=
  match x with
  | .ok (some r) => r
  | _ => []

/-- C4 counterexample: with the root manifest resolved to
`/app/App.csproj` and a cycle in which `../Lib/Lib.csproj` references the
root by that very identity, the computed transitive set contains the root:
the code removes only the direct references, not the root itself. -/
theorem c4_counterexample :
    get_dotnet_main_project_csproj "/app" ["App.csproj"] = .ok "/app/App.csproj" ∧
    "/app/App.csproj" ∈ closureResultOf (get_dotnet_transitive_missing_references
      (pureParse cGraphCycle) 9 (refsOf cGraphCycle "/app/App.csproj")) := by
  decide

/-- Closed instantiation of `c4_closure_excludes_direct_references` at the
two-node cycle `A.csproj ↔ B.csproj`, discharging its hypothesis: the run
succeeds with result `["A.csproj"]` and no direct reference is in it. -/
theorem c4_closure_excludes_direct_references_witness :
    get_dotnet_transitive_missing_references
      (pureParse [("A.csproj", ["B.csproj"]), ("B.csproj", ["A.csproj"])]) 9 ["B.csproj"] =
      .ok (some ["A.csproj"]) ∧
    ∀ s ∈ ["B.csproj"], s ∉ ["A.csproj"] :=
  ⟨by decide,
    c4_closure_excludes_direct_references
      (pureParse [("A.csproj", ["B.csproj"]), ("B.csproj", ["A.csproj"])]) 9
      ["B.csproj"] ["A.csproj"] (by decide)⟩

/-- C8 (amended): the rewrite really is literal, order-sensitive textual
substitution — an identity rewrite map (each original path mapped to
itself) leaves the manifest text byte-for-byte unchanged, for any text and
any key list. -/
theorem c8_identity_rewrite_roundtrip (content : String) (ks : List String) :
    rewriteManifest content (ks.map (fun k => (k, k))) = content := by
  induction ks generalizing content with
  | nil => rfl
  | cons k t ih =>
    show rewriteManifest (strReplace content k k) (t.map (fun k => (k, k))) = content
    rw [strReplace_id]
    exact ih content

/-- C8 counterexample: the substitutions run in dictionary-insertion order
(the order the references appear in the manifest), not longest-match
first.  With the shorter path `b.csproj` listed before `ab.csproj`, the
replacement corrupts the longer path (`"aB"`), leaving the fragment `a` of
the original path; the longest-first order would have produced `"A"`. -/
theorem c8_counterexample :
    rewriteManifest "ab.csproj" [("b.csproj", "B"), ("ab.csproj", "A")] = "aB" ∧
    rewriteManifest "ab.csproj" [("ab.csproj", "A"), ("b.csproj", "B")] = "A" ∧
    ("aB" : String) ≠ "A" := by
  decide

theorem find_unique {β : Type} (m : List (String × β)) (n : String) (c : β)
    (hmem : (n, c) ∈ m) (hnd : (m.map Prod.fst).Nodup) :
    m.find? (fun en => en.1 == n) = some (n, c) := by
  induction m with
  | nil => cases hmem
  | cons hd t ih =>
    rcases hd with ⟨a, b⟩
    rw [List.map_cons, List.nodup_cons] at hnd
    by_cases hh : a = n
    · subst hh
      rw [List.find?_cons_of_pos t (by simp)]
      rcases List.mem_cons.mp hmem with h1 | h1
      · rw [Prod.mk.injEq] at h1
        rw [h1.2]
      · exfalso
        have ha : a ∈ List.map Prod.fst t := by
          simpa using List.mem_map_of_mem Prod.fst h1
        exact hnd.1 ha
    · rw [List.find?_cons_of_neg t (by simp [hh])]
      rcases List.mem_cons.mp hmem with h1 | h1
      · exfalso
        rw [Prod.mk.injEq] at h1
        exact hh h1.1.symm
      · exact ih h1 hnd.2

theorem readByName_of_nodup (orig : Archive) (n : String) (c : Option String)
    (hmem : (n, c) ∈ orig) (hnd : (orig.map Prod.fst).Nodup) :
    readByName orig n = (match c with | some s => .ok s | none => .error .badZipFile) := by
  unfold readByName
  have hnd2 : (orig.reverse.map Prod.fst).Nodup := by
    rw [List.map_reverse]
    exact List.nodup_reverse.mpr hnd
  rw [find_unique orig.reverse n c (List.mem_reverse.mpr hmem) hnd2]
  cases c <;> rfl

theorem copyEntries_of_nodup (orig : Archive) (hnd : (orig.map Prod.fst).Nodup) :
    ∀ (l : Archive), (∀ en, en ∈ l → en ∈ orig) →
      ∀ cops, copyEntries orig l = (cops, .ok ()) →
        cops = l.filter (fun en => !(strEndsWith en.1 ".csproj")) := by
  intro l
  induction l with
  | nil =>
    intro _ cops h
    simp only [copyEntries] at h
    injection h with h1 h2
    rw [← h1, List.filter_nil]
  | cons hd t ih =>
    rcases hd with ⟨n, c⟩
    intro hsub cops h
    have hmem : (n, c) ∈ orig := hsub _ (List.mem_cons_self _ _)
    have hsubt : ∀ en, en ∈ t → en ∈ orig := fun en he => hsub en (List.mem_cons_of_mem _ he)
    simp only [copyEntries] at h
    by_cases hcs : strEndsWith n ".csproj" = true
    · rw [if_pos hcs] at h
      rw [List.filter_cons_of_neg (by simp [hcs])]
      exact ih hsubt cops h
    · rw [if_neg hcs] at h
      rw [readByName_of_nodup orig n c hmem hnd] at h
      cases c with
      | none => simp at h
      | some s =>
        rcases hrec : copyEntries orig t with ⟨cs, rc⟩
        rw [hrec] at h
        injection h with h1 h2
        cases rc with
        | error e => cases h2
        | ok u =>
          rw [List.filter_cons_of_pos (by simp [hcs])]
          rw [← h1]
          rw [ih hsubt cs hrec]

/-- A concrete all-success run: root `/app/App.csproj` directly references
`../Lib/Lib.csproj` (resolved to `/Lib/Lib.csproj`), which has no further
references; all file reads succeed. -/
def cEnvBundle : Env :=
  { dirPath := "/app"
    listing := ["App.csproj", "readme.txt"]
    parse := fun s => if s = "/app/App.csproj" then .ok ["../Lib/Lib.csproj"] else .ok []
    walk := fun d => if d = "/Lib" then ["Lib.csproj", "util.cs"] else []
    file := fun _ => .ok "data" }

/-- A concrete original archive containing, besides the root manifest
entry `App.csproj`, a second `.csproj` entry `sub/Other.csproj` and a
plain entry `readme.txt`. -/
def cFSBundle : FS :=
  [("/tmp/x.zip",
    [("App.csproj", some "m"), ("sub/Other.csproj", some "o"), ("readme.txt", some "r")])]

/-- The entry names of the archive stored at a path. -/
def entryNames (fs : FS) (k : String) : List String :=
  match fsLookup fs k with
  | some a => a.map Prod.fst
  | none => []

/-- C1 counterexample: in a successful finalization the original entry
`sub/Other.csproj` — whose name differs from the root manifest's
archive-relative name `App.csproj` — is NOT copied into the result: the
copy loop omits every entry ending in `.csproj`, not only the root
manifest's entry. -/
theorem c1_counterexample :
    get_dotnet_main_project_csproj cEnvBundle.dirPath cEnvBundle.listing =
      .ok "/app/App.csproj" ∧
    relNameOf cEnvBundle.dirPath "/app/App.csproj" = "App.csproj" ∧
    (zip_dotnet_project_references cEnvBundle 9 "/tmp/x.zip" cFSBundle).1 = Except.ok () ∧
    "sub/Other.csproj" ∈ entryNames cFSBundle "/tmp/x.zip" ∧
    ("sub/Other.csproj" : String) ≠ "App.csproj" ∧
    "sub/Other.csproj" ∉
      entryNames (zip_dotnet_project_references cEnvBundle 9 "/tmp/x.zip" cFSBundle).2
        "/tmp/x.zip" := by
  decide

/-- C1 (amended): on a successful finalizing run, the archive left at
`zipPath` is the staged entries followed by exactly those entries of the
original archive whose names do not end in `.csproj`, byte-for-byte; the
root manifest's entry and every other `.csproj`-named entry are omitted
from the copy.  (The original archive's entry names are assumed distinct,
matching `zipfile`'s name-based entry resolution.) -/
theorem c1_copy_omits_all_csproj_entries (env : Env) (fuel : Nat) (zipPath : String) (fs : FS)
    (p : String) (refs : List String) (orig : Archive)
    (h1 : get_dotnet_main_project_csproj env.dirPath env.listing = .ok p)
    (h2 : env.parse p = .ok refs)
    (h3 : refs ≠ [])
    (h4 : fsLookup fs zipPath = some orig)
    (hnd : (orig.map Prod.fst).Nodup)
    (h5 : (zip_dotnet_project_references env fuel zipPath fs).1 = Except.ok ()) :
    ∃ pre, fsLookup (zip_dotnet_project_references env fuel zipPath fs).2 zipPath =
      some (pre ++ orig.filter (fun en => !(strEndsWith en.1 ".csproj"))) := by
  rcases happ : append_dotnet_references env refs [] with ⟨es2, r2⟩
  cases r2 with
  | error e =>
    simp only [zip_dotnet_project_references, h1, h2, if_neg h3, happ] at h5
    exact Except.noConfusion h5
  | ok rdict =>
    cases hfile : env.file p with
    | error e =>
      simp only [zip_dotnet_project_references, h1, h2, if_neg h3, happ, hfile] at h5
      exact Except.noConfusion h5
    | ok content =>
      cases htrans : get_dotnet_transitive_missing_references env.parse fuel refs with
      | error e =>
        simp only [zip_dotnet_project_references, h1, h2, if_neg h3, happ, hfile, htrans] at h5
        exact Except.noConfusion h5
      | ok o =>
        cases o with
        | none =>
          simp only [zip_dotnet_project_references, h1, h2, if_neg h3, happ, hfile, htrans] at h5
          exact Except.noConfusion h5
        | some ts =>
          rcases hstep : (if ts = [] then (([] : Archive), Except.ok ([] : List (String × String)))
            else append_dotnet_references env ts []) with ⟨es3, r3⟩
          cases r3 with
          | error e =>
            simp only [zip_dotnet_project_references, h1, h2, if_neg h3, happ, hfile,
              htrans, hstep] at h5
            exact Except.noConfusion h5
          | ok d3 =>
            rcases hcopy : copyEntries orig orig with ⟨cops, rc⟩
            cases rc with
            | error e =>
              simp only [zip_dotnet_project_references, h1, h2, if_neg h3, happ, hfile,
                htrans, hstep, h4, hcopy] at h5
              exact Except.noConfusion h5
            | ok u =>
              have hcops : cops = orig.filter (fun en => !(strEndsWith en.1 ".csproj")) :=
                copyEntries_of_nodup orig hnd orig (fun _ hh => hh) cops hcopy
              refine ⟨[(strCat DOTNET_REFERENCES_DIR_IN_ZIP "/", some "")] ++ es2 ++ es3 ++
                [(strCat (relNameOf env.dirPath p) ".bak", some content),
                 (relNameOf env.dirPath p, some (rewriteManifest content rdict))], ?_⟩
              simp only [zip_dotnet_project_references, h1, h2, if_neg h3, happ, hfile,
                htrans, hstep, h4, hcopy]
              rw [fsLookup_fsSet_self, hcops]

/-- Closed instantiation of `c1_copy_omits_all_csproj_entries` at the
concrete bundle environment, discharging every hypothesis. -/
theorem c1_copy_omits_all_csproj_entries_witness :
    get_dotnet_main_project_csproj cEnvBundle.dirPath cEnvBundle.listing =
      .ok "/app/App.csproj" ∧
    cEnvBundle.parse "/app/App.csproj" = .ok ["../Lib/Lib.csproj"] ∧
    ["../Lib/Lib.csproj"] ≠ ([] : List String) ∧
    fsLookup cFSBundle "/tmp/x.zip" =
      some [("App.csproj", some "m"), ("sub/Other.csproj", some "o"), ("readme.txt", some "r")] ∧
    ((([("App.csproj", some "m"), ("sub/Other.csproj", some "o"), ("readme.txt", some "r")] :
      Archive)).map Prod.fst).Nodup ∧
    (zip_dotnet_project_references cEnvBundle 9 "/tmp/x.zip" cFSBundle).1 = Except.ok () ∧
    ∃ pre,
      fsLookup (zip_dotnet_project_references cEnvBundle 9 "/tmp/x.zip" cFSBundle).2
        "/tmp/x.zip" =
      some (pre ++ ([("App.csproj", some "m"), ("sub/Other.csproj", some "o"),
        ("readme.txt", some "r")] : Archive).filter
          (fun en => !(strEndsWith en.1 ".csproj"))) :=
  ⟨by decide, by decide, by decide, by decide, by decide, by decide,
    c1_copy_omits_all_csproj_entries cEnvBundle 9 "/tmp/x.zip" cFSBundle "/app/App.csproj"
      ["../Lib/Lib.csproj"]
      [("App.csproj", some "m"), ("sub/Other.csproj", some "o"), ("readme.txt", some "r")]
      (by decide) (by decide) (by decide) (by decide) (by decide) (by decide)⟩

theorem stageGroup_key (env : Env) (inc : String) (es : Archive) (k v : String)
    (h : stageGroup env inc = .ok (es, k, v)) : k = inc := by
  simp only [stageGroup] at h
  split at h
  · exact Except.noConfusion h
  · split at h
    · exact Except.noConfusion h
    · injection h with hh
      exact (congrArg (fun t => t.2.1) hh).symm

theorem dictInsert_keys (d : List (String × String)) (k v : String) :
    ∀ k2 ∈ (dictInsert d k v).map Prod.fst, k2 ∈ d.map Prod.fst ∨ k2 = k := by
  intro k2 hk2
  unfold dictInsert at hk2
  by_cases hany : d.any (fun kv => kv.1 == k) = true
  · rw [if_pos hany] at hk2
    rcases List.mem_map.mp hk2 with ⟨kv2, hmem, heq⟩
    rcases List.mem_map.mp hmem with ⟨kv, hkv, hkveq⟩
    by_cases hkk : kv.1 = k
    · right
      rw [← heq, ← hkveq, if_pos hkk]
    · left
      rw [← heq, ← hkveq, if_neg hkk]
      exact List.mem_map_of_mem Prod.fst hkv
  · rw [if_neg hany, List.map_append] at hk2
    rcases List.mem_append.mp hk2 with h | h
    · left; exact h
    · right; simpa using h

theorem append_keys (env : Env) :
    ∀ (l : List String) (d0 : List (String × String)) (es : Archive)
      (d : List (String × String)),
      append_dotnet_references env l d0 = (es, .ok d) →
      ∀ k ∈ d.map Prod.fst, k ∈ d0.map Prod.fst ∨ k ∈ l := by
  intro l
  induction l with
  | nil =>
    intro d0 es d h k hk
    simp only [append_dotnet_references] at h
    injection h with h1 h2
    injection h2 with h3
    left
    rw [← h3] at hk
    exact hk
  | cons inc rest ih =>
    intro d0 es d h k hk
    cases hsg : stageGroup env inc with
    | error e =>
      simp only [append_dotnet_references, hsg] at h
      injection h with h1 h2
      exact Except.noConfusion h2
    | ok trip =>
      rcases trip with ⟨esg, kk, vv⟩
      simp only [append_dotnet_references, hsg] at h
      rcases hrec : append_dotnet_references env rest (dictInsert d0 kk vv) with ⟨es4, r4⟩
      rw [hrec] at h
      injection h with h1 h2
      subst h2
      have hkinc : kk = inc := stageGroup_key env inc esg kk vv hsg
      rcases ih (dictInsert d0 kk vv) es4 d hrec k hk with hle | hri
      · rcases dictInsert_keys d0 kk vv k hle with hd | hd
        · left; exact hd
        · right; rw [hd, hkinc]; exact List.mem_cons_self inc rest
      · right; exact List.mem_cons_of_mem _ hri

/-- C9: the path-rewrite dictionary used to rewrite the root manifest has
keys only among the root's DIRECT references (`abs_references`): the
transitive pass at step 3 discards its returned dictionary, and on a
successful run the manifest entry written into the archive is exactly the
root's text rewritten through that direct-reference dictionary. -/
theorem c9_rewrite_map_keys_only_direct (env : Env) (fuel : Nat) (zipPath : String) (fs : FS)
    (p content : String) (refs : List String) (orig es2 : Archive)
    (rdict : List (String × String))
    (h1 : get_dotnet_main_project_csproj env.dirPath env.listing = .ok p)
    (h2 : env.parse p = .ok refs)
    (h3 : refs ≠ [])
    (hA : append_dotnet_references env refs [] = (es2, .ok rdict))
    (hfile : env.file p = .ok content)
    (h4 : fsLookup fs zipPath = some orig)
    (h5 : (zip_dotnet_project_references env fuel zipPath fs).1 = Except.ok ()) :
    (∀ k ∈ rdict.map Prod.fst, k ∈ refs) ∧
    ∃ A, fsLookup (zip_dotnet_project_references env fuel zipPath fs).2 zipPath = some A ∧
      (relNameOf env.dirPath p, some (rewriteManifest content rdict)) ∈ A := by
  constructor
  · intro k hk
    rcases append_keys env refs [] es2 rdict hA k hk with hd | hd
    · simp at hd
    · exact hd
  · cases htrans : get_dotnet_transitive_missing_references env.parse fuel refs with
    | error e =>
      simp only [zip_dotnet_project_references, h1, h2, if_neg h3, hA, hfile, htrans] at h5
      exact Except.noConfusion h5
    | ok o =>
      cases o with
      | none =>
        simp only [zip_dotnet_project_references, h1, h2, if_neg h3, hA, hfile, htrans] at h5
        exact Except.noConfusion h5
      | some ts =>
        rcases hstep : (if ts = [] then (([] : Archive), Except.ok ([] : List (String × String)))
          else append_dotnet_references env ts []) with ⟨es3, r3⟩
        cases r3 with
        | error e =>
          simp only [zip_dotnet_project_references, h1, h2, if_neg h3, hA, hfile,
            htrans, hstep] at h5
          exact Except.noConfusion h5
        | ok d3 =>
          rcases hcopy : copyEntries orig orig with ⟨cops, rc⟩
          cases rc with
          | error e =>
            simp only [zip_dotnet_project_references, h1, h2, if_neg h3, hA, hfile,
              htrans, hstep, h4, hcopy] at h5
            exact Except.noConfusion h5
          | ok u =>
            refine ⟨([(strCat DOTNET_REFERENCES_DIR_IN_ZIP "/", some "")] ++ es2 ++ es3 ++
              [(strCat (relNameOf env.dirPath p) ".bak", some content),
               (relNameOf env.dirPath p, some (rewriteManifest content rdict))]) ++ cops,
              ?_, ?_⟩
            · simp only [zip_dotnet_project_references, h1, h2, if_neg h3, hA, hfile,
                htrans, hstep, h4, hcopy]
              rw [fsLookup_fsSet_self]
            · apply List.mem_append_left
              apply List.mem_append_right
              simp

/-- Closed instantiation of `c9_rewrite_map_keys_only_direct` at the
concrete bundle environment, discharging every hypothesis. -/
theorem c9_rewrite_map_keys_only_direct_witness :
    append_dotnet_references cEnvBundle ["../Lib/Lib.csproj"] [] =
      ([("references/Lib/Lib.csproj", some "data"), ("references/Lib/util.cs", some "data"),
        ("references/Lib/Lib.csproj.bak", some "data")],
       .ok [("../Lib/Lib.csproj", "references/Lib/Lib.csproj")]) ∧
    ((∀ k ∈ ([("../Lib/Lib.csproj", "references/Lib/Lib.csproj")] :
        List (String × String)).map Prod.fst, k ∈ ["../Lib/Lib.csproj"]) ∧
      ∃ A, fsLookup (zip_dotnet_project_references cEnvBundle 9 "/tmp/x.zip" cFSBundle).2
          "/tmp/x.zip" = some A ∧
        (relNameOf cEnvBundle.dirPath "/app/App.csproj",
          some (rewriteManifest "data"
            [("../Lib/Lib.csproj", "references/Lib/Lib.csproj")])) ∈ A) :=
  ⟨by decide,
    c9_rewrite_map_keys_only_direct cEnvBundle 9 "/tmp/x.zip" cFSBundle "/app/App.csproj"
      "data" ["../Lib/Lib.csproj"]
      [("App.csproj", some "m"), ("sub/Other.csproj", some "o"), ("readme.txt", some "r")]
      [("references/Lib/Lib.csproj", some "data"), ("references/Lib/util.cs", some "data"),
        ("references/Lib/Lib.csproj.bak", some "data")]
      [("../Lib/Lib.csproj", "references/Lib/Lib.csproj")]
      (by decide) (by decide) (by decide) (by decide) (by decide) (by decide) (by decide)⟩

/-- C6 (amended): a bundler failure of one of the caught kinds (`OSError`,
`ValueError`, `TypeError`, `ParseError`, `BadZipFile`, `LargeZipFile`) is
non-fatal to packaging: `zip_contents_from_dir` swallows it with a warning
and still returns the archive path, with the filesystem exactly as the
bundler left it (and, by atomicity, the archive itself untouched). -/
theorem c6_caught_kinds_nonfatal (env : Env) (fuel : Nat) (zipPath : String) (fs : FS)
    (e : PyError)
    (he : errOf (zip_dotnet_project_references env fuel zipPath fs) = some e)
    (hc : caughtByBundlerNet e = true) :
    zip_contents_from_dir_netcore env fuel zipPath fs =
      .ok (zipPath, (zip_dotnet_project_references env fuel zipPath fs).2) := by
  rcases hr : zip_dotnet_project_references env fuel zipPath fs with ⟨rc, fs2⟩
  rw [hr] at he
  cases rc with
  | ok u => simp [errOf] at he
  | error e2 =>
    simp only [errOf] at he
    injection he with he2
    subst he2
    simp only [zip_contents_from_dir_netcore, hr, if_pos hc]

/-- An environment whose root directory holds two `.csproj` files. -/
def cEnvTwoCsproj : Env :=
  { dirPath := "/app", listing := ["A.csproj", "B.csproj"], parse := fun _ => .ok [],
    walk := fun _ => [], file := fun _ => .ok "" }

/-- C6 counterexample: the ambiguous-root failure is a bare `Exception`,
which is NOT among the classes caught at lines 76-79, so it propagates out
of `zip_contents_from_dir` instead of degrading to a warning: this
bundling failure is fatal to the packaging flow. -/
theorem c6_counterexample :
    tailOutcome (zip_contents_from_dir_netcore cEnvTwoCsproj 3 "/t.zip" []) =
      some .broadException ∧
    caughtByBundlerNet .broadException = false := by
  decide

/-- An environment whose root manifest is malformed markup. -/
def cEnvMalformed : Env :=
  { dirPath := "/app", listing := ["App.csproj"], parse := fun _ => .error .parseError,
    walk := fun _ => [], file := fun _ => .ok "" }

/-- Closed instantiation of `c6_caught_kinds_nonfatal` at a malformed
manifest, discharging both hypotheses. -/
theorem c6_caught_kinds_nonfatal_witness :
    errOf (zip_dotnet_project_references cEnvMalformed 3 "/t.zip" []) = some .parseError ∧
    caughtByBundlerNet .parseError = true ∧
    zip_contents_from_dir_netcore cEnvMalformed 3 "/t.zip" [] =
      .ok ("/t.zip", (zip_dotnet_project_references cEnvMalformed 3 "/t.zip" []).2) :=
  ⟨by decide, by decide,
    c6_caught_kinds_nonfatal cEnvMalformed 3 "/t.zip" [] .parseError (by decide) (by decide)⟩

/-- An environment in which two distinct references live in the same
containing directory `/lib`. -/
def cEnvSameDir : Env :=
  { dirPath := "/root", listing := ["Main.csproj"], parse := fun _ => .ok [],
    walk := fun d => if d = "/lib" then ["A.csproj", "B.csproj"] else [],
    file := fun _ => .ok "x" }

/-- C7 counterexample: staging the two distinct references
`/lib/A.csproj` and `/lib/B.csproj` in a single `_append_dotnet_references`
pass walks `/lib` twice, writing `references/lib/A.csproj` (and
`references/lib/B.csproj`) twice: two entries of the same archive-write
pass share an arcname. -/
theorem c7_counterexample :
    ((append_dotnet_references cEnvSameDir ["/lib/A.csproj", "/lib/B.csproj"] []).1.map
      Prod.fst) =
      ["references/lib/A.csproj", "references/lib/B.csproj", "references/lib/A.csproj.bak",
       "references/lib/A.csproj", "references/lib/B.csproj",
       "references/lib/B.csproj.bak"] ∧
    ¬ (((append_dotnet_references cEnvSameDir ["/lib/A.csproj", "/lib/B.csproj"] []).1.map
      Prod.fst).Nodup) := by
  decide

/-- The entry group one reference contributes to the staging archive. -/
def groupEntriesOf (env : Env) (inc : String) : Archive :=
  match stageGroup env inc with
  | .ok (es, _, _) => es
  | .error _ => []

theorem append_entries_structure (env : Env) :
    ∀ (l : List String) (d0 : List (String × String)) (es : Archive)
      (d : List (String × String)),
      append_dotnet_references env l d0 = (es, .ok d) →
      es = l.flatMap (groupEntriesOf env) := by
  intro l
  induction l with
  | nil =>
    intro d0 es d h
    simp only [append_dotnet_references] at h
    injection h with h1 h2
    rw [← h1]
    rfl
  | cons inc rest ih =>
    intro d0 es d h
    cases hsg : stageGroup env inc with
    | error e =>
      simp only [append_dotnet_references, hsg] at h
      injection h with h1 h2
      exact Except.noConfusion h2
    | ok trip =>
      rcases trip with ⟨esg, kk, vv⟩
      simp only [append_dotnet_references, hsg] at h
      rcases hrec : append_dotnet_references env rest (dictInsert d0 kk vv) with ⟨es4, r4⟩
      rw [hrec] at h
      injection h with h1 h2
      subst h2
      rw [← h1, List.flatMap_cons]
      congr 1
      · unfold groupEntriesOf
        rw [hsg]
      · exact ih (dictInsert d0 kk vv) es4 d hrec

/-- C7 (amended): each element of a staged reference list contributes
exactly one group of file entries, and across the direct pass and the
transitive pass each distinct referenced project is staged exactly once:
the transitive list is duplicate-free and disjoint from the (assumed
duplicate-free) direct list.  Uniqueness of arcnames within a pass does
NOT follow — see the counterexample, where two references sharing one
containing directory collide. -/
theorem c7_each_reference_staged_once (env : Env) (fuel : Nat) (refs ts : List String)
    (es2 es3 : Archive) (d2 d3 : List (String × String))
    (hnd : refs.Nodup)
    (ht : get_dotnet_transitive_missing_references env.parse fuel refs = .ok (some ts))
    (hA : append_dotnet_references env refs [] = (es2, .ok d2))
    (hB : append_dotnet_references env ts [] = (es3, .ok d3)) :
    (refs ++ ts).Nodup ∧ es2 ++ es3 = (refs ++ ts).flatMap (groupEntriesOf env) := by
  obtain ⟨res, hts⟩ := transitive_ok_shape env.parse fuel refs ts ht
  constructor
  · refine List.Nodup.append hnd ?_ ?_
    · rw [hts]
      exact pySetDiff_nodup res refs
    · rw [List.disjoint_left]
      intro a ha hats
      rw [hts] at hats
      exact pySetDiff_not_mem res refs a hats ha
  · rw [List.flatMap_append, append_entries_structure env refs [] es2 d2 hA,
      append_entries_structure env ts [] es3 d3 hB]

/-- An environment with one direct reference (`/Lib`) and one
transitive-only reference (`/Util`). -/
def cEnvTrans : Env :=
  { dirPath := "/app"
    listing := ["App.csproj"]
    parse := fun s =>
      if s = "/app/App.csproj" then .ok ["../Lib/Lib.csproj"]
      else if s = "../Lib/Lib.csproj" then .ok ["../Util/Util.csproj"]
      else .ok []
    walk := fun d =>
      if d = "/Lib" then ["Lib.csproj"] else if d = "/Util" then ["Util.csproj"] else []
    file := fun _ => .ok "z" }

/-- Closed instantiation of `c7_each_reference_staged_once` at the
direct-plus-transitive environment, discharging every hypothesis. -/
theorem c7_each_reference_staged_once_witness :
    (["../Lib/Lib.csproj"] : List String).Nodup ∧
    get_dotnet_transitive_missing_references cEnvTrans.parse 9 ["../Lib/Lib.csproj"] =
      .ok (some ["../Util/Util.csproj"]) ∧
    append_dotnet_references cEnvTrans ["../Lib/Lib.csproj"] [] =
      ([("references/Lib/Lib.csproj", some "z"), ("references/Lib/Lib.csproj.bak", some "z")],
       .ok [("../Lib/Lib.csproj", "references/Lib/Lib.csproj")]) ∧
    append_dotnet_references cEnvTrans ["../Util/Util.csproj"] [] =
      ([("references/Util/Util.csproj", some "z"),
        ("references/Util/Util.csproj.bak", some "z")],
       .ok [("../Util/Util.csproj", "references/Util/Util.csproj")]) ∧
    ((["../Lib/Lib.csproj"] ++ ["../Util/Util.csproj"] : List String).Nodup ∧
      ([("references/Lib/Lib.csproj", some "z"), ("references/Lib/Lib.csproj.bak", some "z")] :
        Archive) ++
        [("references/Util/Util.csproj", some "z"),
         ("references/Util/Util.csproj.bak", some "z")] =
      (["../Lib/Lib.csproj"] ++ ["../Util/Util.csproj"]).flatMap
        (groupEntriesOf cEnvTrans)) :=
  ⟨by decide, by decide, by decide, by decide,
    c7_each_reference_staged_once cEnvTrans 9 ["../Lib/Lib.csproj"] ["../Util/Util.csproj"]
      [("references/Lib/Lib.csproj", some "z"), ("references/Lib/Lib.csproj.bak", some "z")]
      [("references/Util/Util.csproj", some "z"), ("references/Util/Util.csproj.bak", some "z")]
      [("../Lib/Lib.csproj", "references/Lib/Lib.csproj")]
      [("../Util/Util.csproj", "references/Util/Util.csproj")]
      (by decide) (by decide) (by decide) (by decide)⟩

/-- Closed instantiation of `c5_ambiguous_root_fails_early` at a listing
with two `.csproj` files, discharging its hypothesis. -/
theorem c5_ambiguous_root_fails_early_witness :
    (cEnvTwoCsproj.listing.filter (fun y => strEndsWith y ".csproj")).length ≠ 1 ∧
    zip_dotnet_project_references cEnvTwoCsproj 3 "/t.zip" [] =
      (.error .broadException, []) :=
  ⟨by decide, c5_ambiguous_root_fails_early cEnvTwoCsproj 3 "/t.zip" [] (by decide)⟩

/-- An environment whose single root manifest declares no references. -/
def cEnvNoRefs : Env :=
  { dirPath := "/app", listing := ["App.csproj"], parse := fun _ => .ok [],
    walk := fun _ => [], file := fun _ => .ok "" }

/-- Closed instantiation of `c10_no_references_no_mutation`, discharging
both hypotheses: the run succeeds and the filesystem is byte-for-byte the
input one. -/
theorem c10_no_references_no_mutation_witness :
    get_dotnet_main_project_csproj cEnvNoRefs.dirPath cEnvNoRefs.listing =
      .ok "/app/App.csproj" ∧
    cEnvNoRefs.parse "/app/App.csproj" = .ok [] ∧
    zip_dotnet_project_references cEnvNoRefs 3 "/t.zip"
        [("/t.zip", [("a.txt", some "x")])] =
      (.ok (), [("/t.zip", [("a.txt", some "x")])]) :=
  ⟨by decide, by decide,
    c10_no_references_no_mutation cEnvNoRefs 3 "/t.zip"
      [("/t.zip", [("a.txt", some "x")])] "/app/App.csproj" (by decide) (by decide)⟩
